import Mathlib

/-!
Shallow embedding of `src/truncatable_primes.py` (class `MillerRabinPrimeChecker`).

Modelling conventions:
* Python arbitrary-precision integers are `ℕ`/`ℤ`.
* Python floats (`_max_cumulative_error`, `_cumulative_error_sofar`, the per-call
  allowance) are modelled as exact rationals `ℚ`; `1e-12` becomes `1/10^12`.
* `pow(base, d, n)` (Python's built-in modular exponentiation) is `powMod`,
  a binary modular exponentiation with the specification `powMod b d n = b ^ d % n`.
* `random.randint(1, n-1)` draws are an explicit input stream `g : ℕ → ℕ`
  (the i-th draw of the call is `g i`); properties about the randomized regime
  quantify over all streams with values in `[1, n-1]`.
* `int(math.ceil(-math.log(a, 4)))` is, in exact arithmetic, `⌈-log₄ a⌉ = -⌊log₄ a⌋`,
  that is `-(Int.log 4 a)`; `math.log` on a non-positive argument raises
  `ValueError`, modelled by the `Option` result `none`.
* The `Reporter` callback returned by `_GetBasesGenAndReporter` is a function
  `Bool → MillerRabinPrimeChecker` from the reported verdict to the updated state;
  `IsPrimeR` additionally returns how many times the reporter was invoked on the
  executed control path, mirroring the call sites of the Python code.
-/

/-- State of a `MillerRabinPrimeChecker` instance: the three budget fields
set up in `__init__` (lines 13-16 of the source). -/
structure MillerRabinPrimeChecker where
  max_cumulative_error : ℚ
  cumulative_error_sofar : ℚ
  error_opportunity_count : ℕ
deriving DecidableEq, Repr

namespace MillerRabinPrimeChecker

/-- `__init__`: `_cumulative_error_sofar = 0`, `_error_opportunity_count = 0`. -/
def init (max_cumulative_error_probability : ℚ) : MillerRabinPrimeChecker :=
  ⟨max_cumulative_error_probability, 0, 0⟩

/-- The default construction `MillerRabinPrimeChecker()` uses
`max_cumulative_error_probability = 1e-12`. -/
def initDefault : MillerRabinPrimeChecker := init (1 / 10 ^ 12)

/-- Per-call allowance computed at lines 55-57:
`(self._max_cumulative_error - self._cumulative_error_sofar)
  / float(max(100, self._error_opportunity_count))`. -/
def allowanceOf (s : MillerRabinPrimeChecker) : ℚ :=
  (s.max_cumulative_error - s.cumulative_error_sofar) /
    ((max 100 s.error_opportunity_count : ℕ) : ℚ)

end MillerRabinPrimeChecker

/-- Fuel-driven core of `powMod` (structural recursion so that the kernel can
evaluate it on concrete inputs). -/
def powModAux : ℕ → ℕ → ℕ → ℕ → ℕ
  | 0, _, _, n => 1 % n
  | fuel + 1, b, d, n =>
    if d = 0 then 1 % n
    else
      let h := powModAux fuel b (d / 2) n
      if d % 2 = 0 then h * h % n else h * h % n * (b % n) % n

/-- Python's `pow(base, d, n)`: modular exponentiation, `base ^ d % n`
(computed by repeated squaring, as the built-in does). -/
def powMod (b d n : ℕ) : ℕ := powModAux (d + 1) b d n

/-- The squaring loop of `_IsDefinitelyComposite` (lines 46-50): repeat `r`
times; if `x == n - 1` return `False` (not proven composite), else square
mod `n`; if the loop finishes, return `True` (definitely composite). -/
def mrLoop (n : ℕ) : ℕ → ℕ → Bool
  | 0, _ => true
  | r + 1, x => if x = n - 1 then false else mrLoop n r (x * x % n)

/-- `_IsDefinitelyComposite(self, base, n, d, r)` (lines 42-50). -/
def IsDefinitelyComposite (base n d r : ℕ) : Bool :=
  let x := powMod base d n
  if x = 1 then false else mrLoop n r x

/-- Fuel-driven core of `split2`. -/
def split2Aux : ℕ → ℕ → ℕ × ℕ
  | 0, d => (0, d)
  | fuel + 1, d =>
    if d % 2 = 0 ∧ 0 < d then
      let p := split2Aux fuel (d / 2)
      (p.1 + 1, p.2)
    else (0, d)

/-- The decomposition loop at lines 27-31: starting from `d = n - 1`, halve
while even, counting the halvings; returns `(r, d)` with `n - 1 = 2^r * d`
and `d` odd.  (The Python guard is just `d % 2 == 0`; the added `0 < d`
conjunct is equivalent on every reachable input `d = n - 1 ≥ 2` and makes
the recursion terminate on the unreachable input `0`.) -/
def split2 (d : ℕ) : ℕ × ℕ := split2Aux d d

/-- Threshold between the deterministic and randomized witness regimes
(line 53). -/
def detThreshold : ℕ := 3215031751

/-- The witness count at line 59, in exact arithmetic:
`int(math.ceil(-math.log(a, 4))) = ⌈-log₄ a⌉ = -⌊log₄ a⌋ = -(Int.log 4 a)`. -/
def kOf (a : ℚ) : ℤ := -(Int.log 4 a)

open MillerRabinPrimeChecker in
/-- `_GetBasesGenAndReporter(self, n)` (lines 52-74).  Returns the list of
witness bases the generator will yield and the reporter callback (mapping the
reported verdict to the updated checker state), or `none` when
`math.log` faults on a non-positive allowance.  The deterministic branch
returns the set `{x for x in {2,3,5,7} if x < n}` (iteration order of the
small set is immaterial: the verdict does not depend on it) and the no-op
reporter `lambda x: None`. -/
def GetBasesGenAndReporter (s : MillerRabinPrimeChecker) (n : ℕ) (g : ℕ → ℕ) :
    Option (List ℕ × (Bool → MillerRabinPrimeChecker)) :=
  if n < detThreshold then
    some ([2, 3, 5, 7].filter (· < n), fun _ => s)
  else
    let a := allowanceOf s
    if a ≤ 0 then none
    else
      some ((List.range (kOf a).toNat).map g,
        fun is_prime =>
          if is_prime then
            { s with cumulative_error_sofar := s.cumulative_error_sofar + a,
                     error_opportunity_count := s.error_opportunity_count + 1 }
          else s)

/-- The `for base in bases_gen` loop of `IsPrime` (lines 34-38): `result`
starts `True`; the first base proving compositeness sets it `False` and
breaks. -/
def witnessLoop (n d r : ℕ) : List ℕ → Bool
  | [] => true
  | b :: bs => if IsDefinitelyComposite b n d r then false else witnessLoop n d r bs

open MillerRabinPrimeChecker in
/-- `IsPrime(self, n)` (lines 18-40), instrumented: the result additionally
carries the number of reporter invocations on the executed control path
(the single call site at line 39 runs exactly once whenever a reporter was
obtained; the three early returns at lines 19-24 never obtain one). -/
def IsPrimeR (s : MillerRabinPrimeChecker) (n : ℤ) (g : ℕ → ℕ) :
    Option (Bool × MillerRabinPrimeChecker × ℕ) :=
  if n = 2 then some (true, s, 0)
  else if n ≤ 1 then some (false, s, 0)
  else if n % 2 = 0 then some (false, s, 0)
  else
    let m := n.toNat
    let rd := split2 (m - 1)
    match GetBasesGenAndReporter s m g with
    | none => none
    | some (bases, reporter) =>
      let result := witnessLoop m rd.2 rd.1 bases
      some (result, reporter result, 1)

/-- `IsPrime` proper: the verdict and the checker state after the call
(`none` when the call raises). -/
def IsPrime (s : MillerRabinPrimeChecker) (n : ℤ) (g : ℕ → ℕ) :
    Option (Bool × MillerRabinPrimeChecker) :=
  (IsPrimeR s n g).map (fun t => (t.1, t.2.1))

/-- Running a sequence of calls: each element of the list is the input `n`
together with the random stream the call would consume; `none` when some
call in the sequence raises. -/
def runCalls (s : MillerRabinPrimeChecker) :
    List (ℤ × (ℕ → ℕ)) → Option MillerRabinPrimeChecker
  | [] => some s
  | (n, g) :: rest =>
    match IsPrime s n g with
    | none => none
    | some (_, s') => runCalls s' rest

/-- Trial-division ground truth for primality: `2 ≤ n` and no `d` with
`2 ≤ d < n` divides `n`. -/
def trialDivIsPrime (n : ℕ) : Bool :=
  decide (2 ≤ n) && (List.range n).all (fun d => decide (d < 2) || decide (n % d ≠ 0))

/-! ### Basic specifications of the executable helpers -/

theorem powModAux_eq (fuel : ℕ) : ∀ b d n, d < fuel → powModAux fuel b d n = b ^ d % n := by
  induction fuel with
  | zero => intro b d n h; omega
  | succ fuel ih =>
    intro b d n h
    by_cases hd : d = 0
    · subst hd; simp [powModAux]
    · have hlt : d / 2 < fuel := by omega
      have hrec := ih b (d / 2) n hlt
      have key : ∀ x y : ℕ, x % n * (y % n) % n = x * y % n :=
        fun x y => (Nat.mul_mod x y n).symm
      by_cases hpar : d % 2 = 0
      · have hsum : b ^ (d / 2) * b ^ (d / 2) = b ^ d := by
          rw [← pow_add]
          congr 1
          omega
        simp only [powModAux, if_neg hd, if_pos hpar, hrec, key, hsum]
      · have hsum : b ^ (d / 2) * b ^ (d / 2) * b = b ^ d := by
          rw [← pow_add, ← pow_succ]
          congr 1
          omega
        simp only [powModAux, if_neg hd, if_neg hpar, hrec, key, hsum]

/-- `powMod` computes modular exponentiation. -/
theorem powMod_eq (b d n : ℕ) : powMod b d n = b ^ d % n :=
  powModAux_eq (d + 1) b d n (Nat.lt_succ_self d)

theorem split2Aux_spec (fuel : ℕ) : ∀ d, d ≤ fuel → 0 < d →
    2 ^ (split2Aux fuel d).1 * (split2Aux fuel d).2 = d ∧ (split2Aux fuel d).2 % 2 = 1 := by
  induction fuel with
  | zero => intro d h h0; omega
  | succ fuel ih =>
    intro d h h0
    by_cases hpar : d % 2 = 0
    · have hcond : d % 2 = 0 ∧ 0 < d := ⟨hpar, h0⟩
      have hrec := ih (d / 2) (by omega) (by omega)
      simp only [split2Aux, if_pos hcond]
      refine ⟨?_, hrec.2⟩
      have : 2 ^ ((split2Aux fuel (d / 2)).1 + 1) * (split2Aux fuel (d / 2)).2
          = 2 * (2 ^ (split2Aux fuel (d / 2)).1 * (split2Aux fuel (d / 2)).2) := by ring
      rw [this, hrec.1]; omega
    · have hcond : ¬ (d % 2 = 0 ∧ 0 < d) := by tauto
      simp only [split2Aux, if_neg hcond]
      constructor
      · simp
      · omega

/-- `split2 d` decomposes a positive `d` as `2 ^ r * d0` with `d0` odd. -/
theorem split2_spec (d : ℕ) (h0 : 0 < d) :
    2 ^ (split2 d).1 * (split2 d).2 = d ∧ (split2 d).2 % 2 = 1 :=
  split2Aux_spec d d le_rfl h0

/-- One squaring step mod `n`. -/
def sqmod (n x : ℕ) : ℕ := x * x % n

theorem mrLoop_eq_false (n : ℕ) : ∀ r x, (∃ i < r, (sqmod n)^[i] x = n - 1) →
    mrLoop n r x = false := by
  intro r
  induction r with
  | zero => intro x h; omega
  | succ r ih =>
    intro x h
    obtain ⟨i, hi, hx⟩ := h
    by_cases hx0 : x = n - 1
    · simp [mrLoop, hx0]
    · have hi0 : i ≠ 0 := by
        intro h0; subst h0; simp at hx; exact hx0 hx
      obtain ⟨j, rfl⟩ := Nat.exists_eq_succ_of_ne_zero hi0
      rw [Function.iterate_succ_apply] at hx
      simp only [mrLoop, if_neg hx0]
      exact ih (x * x % n) ⟨j, by omega, hx⟩

theorem witnessLoop_eq_true (n d r : ℕ) : ∀ bs : List ℕ,
    (∀ b ∈ bs, IsDefinitelyComposite b n d r = false) → witnessLoop n d r bs = true := by
  intro bs
  induction bs with
  | nil => intro _; rfl
  | cons b rest ih =>
    intro h
    simp only [witnessLoop, h b (by simp)]
    exact ih (fun x hx => h x (by simp [hx]))

theorem witnessLoop_eq_false_of_mem (n d r : ℕ) (x : ℕ) : ∀ bs : List ℕ,
    x ∈ bs → IsDefinitelyComposite x n d r = true → witnessLoop n d r bs = false := by
  intro bs
  induction bs with
  | nil => intro hmem _; simp at hmem
  | cons b rest ih =>
    intro hmem hx
    rcases List.mem_cons.mp hmem with rfl | hmem'
    · simp only [witnessLoop, hx, if_true]
    · by_cases hb : IsDefinitelyComposite b n d r = true
      · simp only [witnessLoop, hb, if_true]
      · simp only [witnessLoop, hb, if_false]
        exact ih hmem' hx

/-! ### Control-path lemmas for `IsPrimeR` -/

open MillerRabinPrimeChecker

/-- A call with `n ≥ 3` odd and `n.toNat` below the threshold takes the
deterministic branch: fixed filtered witness set, no-op reporter, one report. -/
theorem isPrimeR_det (s : MillerRabinPrimeChecker) (n : ℤ) (g : ℕ → ℕ)
    (hn : 3 ≤ n) (hodd : n % 2 = 1) (hlt : n < (detThreshold : ℕ)) :
    IsPrimeR s n g =
      some (witnessLoop n.toNat (split2 (n.toNat - 1)).2 (split2 (n.toNat - 1)).1
              ([2, 3, 5, 7].filter (· < n.toNat)), s, 1) := by
  have h2 : ¬ n = 2 := by omega
  have h1 : ¬ n ≤ 1 := by omega
  have he : ¬ n % 2 = 0 := by omega
  have hm : n.toNat < detThreshold := by omega
  simp only [IsPrimeR, if_neg h2, if_neg h1, if_neg he, GetBasesGenAndReporter, if_pos hm]

/-- A call with odd `n` at or above the threshold and positive allowance takes
the randomized branch: `(kOf allowance).toNat` drawn bases, budget-updating
reporter, one report. -/
theorem isPrimeR_rand (s : MillerRabinPrimeChecker) (n : ℤ) (g : ℕ → ℕ)
    (hn : ((detThreshold : ℕ) : ℤ) ≤ n) (hodd : n % 2 = 1) (ha : 0 < allowanceOf s) :
    IsPrimeR s n g =
      some (witnessLoop n.toNat (split2 (n.toNat - 1)).2 (split2 (n.toNat - 1)).1
              ((List.range (kOf (allowanceOf s)).toNat).map g),
            (if witnessLoop n.toNat (split2 (n.toNat - 1)).2 (split2 (n.toNat - 1)).1
                  ((List.range (kOf (allowanceOf s)).toNat).map g) then
               { s with cumulative_error_sofar := s.cumulative_error_sofar + allowanceOf s,
                        error_opportunity_count := s.error_opportunity_count + 1 }
             else s), 1) := by
  have hth : (3215031751 : ℤ) ≤ n := by
    simpa [detThreshold] using hn
  have h2 : ¬ n = 2 := by omega
  have h1 : ¬ n ≤ 1 := by omega
  have he : ¬ n % 2 = 0 := by omega
  have hm : ¬ n.toNat < detThreshold := by simp only [detThreshold]; omega
  have ha' : ¬ allowanceOf s ≤ 0 := not_le.mpr ha
  simp only [IsPrimeR, if_neg h2, if_neg h1, if_neg he, GetBasesGenAndReporter, if_neg hm,
    if_neg ha']

/-- A call with odd `n` at or above the threshold and non-positive allowance
faults (`math.log` domain error). -/
theorem isPrimeR_fault (s : MillerRabinPrimeChecker) (n : ℤ) (g : ℕ → ℕ)
    (hn : ((detThreshold : ℕ) : ℤ) ≤ n) (hodd : n % 2 = 1) (ha : allowanceOf s ≤ 0) :
    IsPrimeR s n g = none := by
  have hth : (3215031751 : ℤ) ≤ n := by
    simpa [detThreshold] using hn
  have h2 : ¬ n = 2 := by omega
  have h1 : ¬ n ≤ 1 := by omega
  have he : ¬ n % 2 = 0 := by omega
  have hm : ¬ n.toNat < detThreshold := by simp only [detThreshold]; omega
  simp only [IsPrimeR, if_neg h2, if_neg h1, if_neg he, GetBasesGenAndReporter, if_neg hm,
    if_pos ha]

/-! ### The Miller-Rabin witness test never condemns a prime -/

theorem sq_pow_eq_one_cases {R : Type} [Ring R] [NoZeroDivisors R] :
    ∀ (r : ℕ) (y : R), y ^ (2 ^ r) = 1 → y = 1 ∨ ∃ i < r, y ^ (2 ^ i) = -1 := by
  intro r
  induction r with
  | zero =>
    intro y h
    left
    simpa using h
  | succ r ih =>
    intro y h
    have h2 : (y ^ 2) ^ (2 ^ r) = 1 := by
      rw [← pow_mul, mul_comm, ← pow_succ]
      exact h
    rcases ih (y ^ 2) h2 with h1 | ⟨i, hi, hyi⟩
    · have hyy : y * y = 1 := by
        rw [← pow_two]
        exact h1
      rcases mul_self_eq_one_iff.1 hyy with hy | hy
      · exact Or.inl hy
      · exact Or.inr ⟨0, by omega, by simpa using hy⟩
    · refine Or.inr ⟨i + 1, by omega, ?_⟩
      rw [pow_succ, mul_comm (2 ^ i) 2, pow_mul]
      exact hyi

theorem iterate_sqmod_lt (n : ℕ) (hn : 0 < n) :
    ∀ (i x : ℕ), x < n → (sqmod n)^[i] x < n := by
  intro i
  induction i with
  | zero => intro x hx; simpa using hx
  | succ i ih =>
    intro x hx
    rw [Function.iterate_succ_apply]
    exact ih _ (Nat.mod_lt _ hn)

theorem iterate_sqmod_cast (n : ℕ) :
    ∀ (i x : ℕ), (((sqmod n)^[i] x : ℕ) : ZMod n) = (x : ZMod n) ^ (2 ^ i) := by
  intro i
  induction i with
  | zero => intro x; simp
  | succ i ih =>
    intro x
    rw [Function.iterate_succ_apply, ih]
    have hc : ((sqmod n x : ℕ) : ZMod n) = (x : ZMod n) ^ 2 := by
      rw [sqmod, ZMod.natCast_mod, Nat.cast_mul, pow_two]
    rw [hc, ← pow_mul, mul_comm 2 (2 ^ i), ← pow_succ]

theorem natCast_pred_eq_neg_one (n : ℕ) (hn : 1 ≤ n) : ((n - 1 : ℕ) : ZMod n) = -1 := by
  rw [Nat.cast_sub hn, ZMod.natCast_self, Nat.cast_one, zero_sub]

/-- On a prime modulus `n`, the single-witness test clears every base in
`[1, n-1]`: the witness sequence starts at `1` or reaches `n - 1`. -/
theorem isDefinitelyComposite_eq_false_of_prime (n base d r : ℕ) (hp : Nat.Prime n)
    (hb1 : 1 ≤ base) (hb2 : base ≤ n - 1) (hdr : n - 1 = 2 ^ r * d) :
    IsDefinitelyComposite base n d r = false := by
  haveI : Fact (Nat.Prime n) := ⟨hp⟩
  have hn2 : 2 ≤ n := hp.two_le
  have hn0 : 0 < n := by omega
  haveI : NeZero n := ⟨by omega⟩
  have hB : (base : ZMod n) ≠ 0 := by
    rw [Ne, ZMod.natCast_zmod_eq_zero_iff_dvd]
    intro hdvd
    have := Nat.le_of_dvd (by omega) hdvd
    omega
  have hferm : (base : ZMod n) ^ (n - 1) = 1 := ZMod.pow_card_sub_one_eq_one hB
  have hpow : ((base : ZMod n) ^ d) ^ (2 ^ r) = 1 := by
    rw [← pow_mul, mul_comm d (2 ^ r), ← hdr]
    exact hferm
  simp only [IsDefinitelyComposite]
  set x0 : ℕ := powMod base d n with hx0
  have hx0lt : x0 < n := by
    rw [hx0, powMod_eq]
    exact Nat.mod_lt _ hn0
  have hx0cast : ((x0 : ℕ) : ZMod n) = (base : ZMod n) ^ d := by
    rw [hx0, powMod_eq, ZMod.natCast_mod, Nat.cast_pow]
  rcases sq_pow_eq_one_cases r ((base : ZMod n) ^ d) hpow with h1 | ⟨i, hi, hneg⟩
  · have hone : x0 = 1 := by
      have hc : ((x0 : ℕ) : ZMod n) = ((1 : ℕ) : ZMod n) := by
        rw [hx0cast, h1, Nat.cast_one]
      have hv := congrArg ZMod.val hc
      rwa [ZMod.val_cast_of_lt hx0lt, ZMod.val_cast_of_lt (by omega)] at hv
    rw [if_pos hone]
  · have hiter : (sqmod n)^[i] x0 = n - 1 := by
      have hc : (((sqmod n)^[i] x0 : ℕ) : ZMod n) = ((n - 1 : ℕ) : ZMod n) := by
        rw [iterate_sqmod_cast, hx0cast, hneg, natCast_pred_eq_neg_one n (by omega)]
      have hv := congrArg ZMod.val hc
      rwa [ZMod.val_cast_of_lt (iterate_sqmod_lt n hn0 i x0 hx0lt),
           ZMod.val_cast_of_lt (by omega)] at hv
    have hloop := mrLoop_eq_false n r x0 ⟨i, hi, hiter⟩
    by_cases hx1 : x0 = 1
    · rw [if_pos hx1]
    · rw [if_neg hx1]
      exact hloop

/-! ### Exact characterization of the witness count -/

/-- `kOf a` is the least integer `k` with `4 ^ (-k) ≤ a`, for `a > 0`. -/
theorem kOf_least (a : ℚ) (ha : 0 < a) :
    (4 : ℚ) ^ (-(kOf a)) ≤ a ∧ ∀ j : ℤ, (4 : ℚ) ^ (-j) ≤ a → kOf a ≤ j := by
  have hb : 1 < 4 := by norm_num
  have hcast : ((4 : ℕ) : ℚ) = (4 : ℚ) := by norm_num
  constructor
  · have h := (Int.zpow_le_iff_le_log (R := ℚ) hb ha).2 (le_refl (Int.log 4 a))
    rw [hcast] at h
    simpa [kOf] using h
  · intro j hj
    have hj' : ((4 : ℕ) : ℚ) ^ (-j) ≤ a := by rwa [hcast]
    have := (Int.zpow_le_iff_le_log (R := ℚ) hb ha).1 hj'
    simp only [kOf]
    omega

/-- Uniqueness characterization used to evaluate `Int.log` on concrete inputs. -/
theorem int_log_eq (b : ℕ) (r : ℚ) (m : ℤ) (hb : 1 < b) (hr : 0 < r)
    (h1 : ((b : ℕ) : ℚ) ^ m ≤ r) (h2 : r < ((b : ℕ) : ℚ) ^ (m + 1)) : Int.log b r = m := by
  have hle : Int.log b r ≤ m := by
    have := (Int.lt_zpow_iff_log_lt (R := ℚ) hb hr).1 h2
    omega
  exact le_antisymm hle ((Int.zpow_le_iff_le_log (R := ℚ) hb hr).1 h1)

/-! ### Shape of a completed call and budget bookkeeping -/

theorem denom_one_le (s : MillerRabinPrimeChecker) :
    (1 : ℚ) ≤ ((max 100 s.error_opportunity_count : ℕ) : ℚ) := by
  have h : (1 : ℕ) ≤ max 100 s.error_opportunity_count :=
    le_trans (by norm_num) (le_max_left _ _)
  exact_mod_cast h

theorem denom_pos (s : MillerRabinPrimeChecker) :
    (0 : ℚ) < ((max 100 s.error_opportunity_count : ℕ) : ℚ) :=
  lt_of_lt_of_le one_pos (denom_one_le s)

theorem gap_pos_of_allowance_pos (s : MillerRabinPrimeChecker) (ha : 0 < allowanceOf s) :
    0 < s.max_cumulative_error - s.cumulative_error_sofar := by
  have hD := denom_pos s
  have h := mul_pos ha hD
  rwa [allowanceOf, div_mul_cancel₀ _ (ne_of_gt hD)] at h

theorem allowance_le_gap (s : MillerRabinPrimeChecker) (ha : 0 < allowanceOf s) :
    allowanceOf s ≤ s.max_cumulative_error - s.cumulative_error_sofar := by
  rw [allowanceOf]
  exact div_le_self (le_of_lt (gap_pos_of_allowance_pos s ha)) (denom_one_le s)

/-- Every completed call either leaves the state untouched, or is a
randomized-regime call with verdict `true` that commits exactly its
allowance and one opportunity. -/
theorem isPrime_shape (s : MillerRabinPrimeChecker) (n : ℤ) (g : ℕ → ℕ) (b : Bool)
    (s' : MillerRabinPrimeChecker) (h : IsPrime s n g = some (b, s')) :
    s' = s ∨
    (((detThreshold : ℕ) : ℤ) ≤ n ∧ b = true ∧ 0 < allowanceOf s ∧
      s' = { s with cumulative_error_sofar := s.cumulative_error_sofar + allowanceOf s,
                    error_opportunity_count := s.error_opportunity_count + 1 }) := by
  by_cases h2 : n = 2
  · left
    simp [IsPrime, IsPrimeR, h2] at h
    exact h.2.symm
  by_cases h1 : n ≤ 1
  · left
    simp [IsPrime, IsPrimeR, h2, h1] at h
    exact h.2.symm
  by_cases he : n % 2 = 0
  · left
    simp [IsPrime, IsPrimeR, h2, h1, he] at h
    exact h.2.symm
  have hn3 : 3 ≤ n := by omega
  have hodd : n % 2 = 1 := by omega
  by_cases hdet : n < ((detThreshold : ℕ) : ℤ)
  · left
    rw [IsPrime, isPrimeR_det s n g hn3 hodd hdet] at h
    simp only [Option.map_some', Option.some.injEq, Prod.mk.injEq] at h
    exact h.2.symm
  · have hth : ((detThreshold : ℕ) : ℤ) ≤ n := by omega
    by_cases ha : allowanceOf s ≤ 0
    · rw [IsPrime, isPrimeR_fault s n g hth hodd ha] at h
      simp at h
    · have ha' : 0 < allowanceOf s := not_le.mp ha
      rw [IsPrime, isPrimeR_rand s n g hth hodd ha'] at h
      simp only [Option.map_some', Option.some.injEq, Prod.mk.injEq] at h
      by_cases hres : witnessLoop n.toNat (split2 (n.toNat - 1)).2 (split2 (n.toNat - 1)).1
          ((List.range (kOf (allowanceOf s)).toNat).map g) = true
      · right
        rw [hres, if_pos rfl] at h
        exact ⟨hth, h.1.symm, ha', h.2.symm⟩
      · left
        rw [Bool.not_eq_true] at hres
        rw [hres, if_neg (by simp)] at h
        exact h.2.symm

/-- Single-call budget bookkeeping: the ceiling is never mutated, the spent
budget and the opportunity count never decrease, the `spent ≤ ceiling`
invariant is preserved, and the per-call allowance never grows. -/
theorem isPrime_budget_step (s : MillerRabinPrimeChecker) (n : ℤ) (g : ℕ → ℕ) (b : Bool)
    (s' : MillerRabinPrimeChecker) (h : IsPrime s n g = some (b, s')) :
    s'.max_cumulative_error = s.max_cumulative_error ∧
    s.cumulative_error_sofar ≤ s'.cumulative_error_sofar ∧
    s.error_opportunity_count ≤ s'.error_opportunity_count ∧
    (s.cumulative_error_sofar ≤ s.max_cumulative_error →
      s'.cumulative_error_sofar ≤ s'.max_cumulative_error) ∧
    allowanceOf s' ≤ allowanceOf s := by
  rcases isPrime_shape s n g b s' h with rfl | ⟨hth, hb, ha, rfl⟩
  · exact ⟨rfl, le_rfl, le_rfl, id, le_rfl⟩
  · have hgap := gap_pos_of_allowance_pos s ha
    have hle := allowance_le_gap s ha
    refine ⟨rfl, ?_, by simp, fun _ => ?_, ?_⟩
    · change s.cumulative_error_sofar ≤ s.cumulative_error_sofar + allowanceOf s
      linarith
    · change s.cumulative_error_sofar + allowanceOf s ≤ s.max_cumulative_error
      linarith
    have hnum : s.max_cumulative_error - (s.cumulative_error_sofar + allowanceOf s)
        ≤ s.max_cumulative_error - s.cumulative_error_sofar := by linarith
    have hnum0 : 0 ≤ s.max_cumulative_error - s.cumulative_error_sofar := le_of_lt hgap
    have hDle : ((max 100 s.error_opportunity_count : ℕ) : ℚ)
        ≤ ((max 100 (s.error_opportunity_count + 1) : ℕ) : ℚ) := by
      have : max 100 s.error_opportunity_count ≤ max 100 (s.error_opportunity_count + 1) :=
        max_le_max le_rfl (Nat.le_succ _)
      exact_mod_cast this
    simp only [allowanceOf]
    exact div_le_div₀ hnum0 hnum (denom_pos s) hDle

/-- Budget bookkeeping along any sequence of completed calls. -/
theorem runCalls_budget (calls : List (ℤ × (ℕ → ℕ))) :
    ∀ s s', runCalls s calls = some s' →
    s'.max_cumulative_error = s.max_cumulative_error ∧
    s.cumulative_error_sofar ≤ s'.cumulative_error_sofar ∧
    s.error_opportunity_count ≤ s'.error_opportunity_count ∧
    (s.cumulative_error_sofar ≤ s.max_cumulative_error →
      s'.cumulative_error_sofar ≤ s'.max_cumulative_error) ∧
    allowanceOf s' ≤ allowanceOf s := by
  induction calls with
  | nil =>
    intro s s' h
    simp only [runCalls, Option.some.injEq] at h
    subst h
    exact ⟨rfl, le_rfl, le_rfl, id, le_rfl⟩
  | cons c rest ih =>
    intro s s' h
    obtain ⟨n, g⟩ := c
    simp only [runCalls] at h
    cases heq : IsPrime s n g with
    | none => rw [heq] at h; simp at h
    | some p =>
      obtain ⟨b, t⟩ := p
      rw [heq] at h
      have hstep := isPrime_budget_step s n g b t heq
      have hrest := ih t s' h
      exact ⟨hrest.1.trans hstep.1, hstep.2.1.trans hrest.2.1,
        hstep.2.2.1.trans hrest.2.2.1,
        fun hinv => hrest.2.2.2.1 (hstep.2.2.2.1 hinv),
        hrest.2.2.2.2.trans hstep.2.2.2.2⟩

/-! ### A completed call on a prime input always answers true -/

theorem isPrime_of_prime (n : ℕ) (hp : Nat.Prime n) (s : MillerRabinPrimeChecker)
    (g : ℕ → ℕ) (b : Bool) (s' : MillerRabinPrimeChecker)
    (hg : ∀ i, 1 ≤ g i ∧ g i ≤ n - 1) (h : IsPrime s (n : ℤ) g = some (b, s')) :
    b = true := by
  by_cases hn2 : n = 2
  · subst hn2
    simp [IsPrime, IsPrimeR] at h
    exact h.1
  · have h2le : 2 ≤ n := hp.two_le
    have hoddn : n % 2 = 1 := Nat.odd_iff.mp (hp.odd_of_ne_two hn2)
    have hn3 : 3 ≤ n := by omega
    have hz3 : 3 ≤ (n : ℤ) := by exact_mod_cast hn3
    have hzodd : (n : ℤ) % 2 = 1 := by omega
    have ht : ((n : ℤ)).toNat = n := Int.toNat_natCast n
    have hsp := split2_spec (n - 1) (by omega)
    have hdr : n - 1 = 2 ^ (split2 (n - 1)).1 * (split2 (n - 1)).2 := hsp.1.symm
    have hall : ∀ base, 1 ≤ base → base ≤ n - 1 →
        IsDefinitelyComposite base n (split2 (n - 1)).2 (split2 (n - 1)).1 = false :=
      fun base hb1 hb2 =>
        isDefinitelyComposite_eq_false_of_prime n base (split2 (n - 1)).2 (split2 (n - 1)).1
          hp hb1 hb2 hdr
    by_cases hdet : (n : ℤ) < ((detThreshold : ℕ) : ℤ)
    · rw [IsPrime, isPrimeR_det s (n : ℤ) g hz3 hzodd hdet, ht] at h
      simp only [Option.map_some', Option.some.injEq, Prod.mk.injEq] at h
      rw [← h.1]
      apply witnessLoop_eq_true
      intro base hbmem
      simp only [List.mem_filter, decide_eq_true_eq] at hbmem
      have hb24 : base = 2 ∨ base = 3 ∨ base = 5 ∨ base = 7 := by
        simpa using hbmem.1
      exact hall base (by omega) (by omega)
    · have hth : ((detThreshold : ℕ) : ℤ) ≤ (n : ℤ) := by omega
      by_cases ha : allowanceOf s ≤ 0
      · rw [IsPrime, isPrimeR_fault s (n : ℤ) g hth hzodd ha] at h
        simp at h
      · have ha' : 0 < allowanceOf s := not_le.mp ha
        rw [IsPrime, isPrimeR_rand s (n : ℤ) g hth hzodd ha', ht] at h
        simp only [Option.map_some', Option.some.injEq, Prod.mk.injEq] at h
        rw [← h.1]
        have hw : witnessLoop n (split2 (n - 1)).2 (split2 (n - 1)).1
            ((List.range (kOf (allowanceOf s)).toNat).map g) = true := by
          apply witnessLoop_eq_true
          intro base hbmem
          simp only [List.mem_map] at hbmem
          obtain ⟨i, _, rfl⟩ := hbmem
          exact hall (g i) (hg i).1 (hg i).2
        rw [hw]

/-! ### Concrete evaluation of randomized-regime calls -/

theorem isPrimeR_rand_eval (s : MillerRabinPrimeChecker) (n : ℤ) (g : ℕ → ℕ)
    (a : ℚ) (k : ℕ) (w : Bool)
    (hn : ((detThreshold : ℕ) : ℤ) ≤ n) (hodd : n % 2 = 1)
    (ha : allowanceOf s = a) (ha0 : 0 < a) (hk : (kOf a).toNat = k)
    (hw : witnessLoop n.toNat (split2 (n.toNat - 1)).2 (split2 (n.toNat - 1)).1
            ((List.range k).map g) = w) :
    IsPrimeR s n g =
      some (w,
        if w then
          { s with cumulative_error_sofar := s.cumulative_error_sofar + a,
                   error_opportunity_count := s.error_opportunity_count + 1 }
        else s, 1) := by
  rw [isPrimeR_rand s n g hn hodd (by rw [ha]; exact ha0), ha, hk, hw]

theorem allowance_init_one : allowanceOf (init 1) = 1 / 100 := by
  norm_num [allowanceOf, init]

theorem log4_one_hundredth : Int.log 4 ((1 : ℚ) / 100) = -4 := by
  apply int_log_eq 4 ((1 : ℚ) / 100) (-4) (by norm_num) (by norm_num)
  · norm_num
  · norm_num

theorem kOf_one_hundredth_toNat : (kOf ((1 : ℚ) / 100)).toNat = 4 := by
  rw [kOf, log4_one_hundredth]
  rfl

/-- On a fresh budget of `1`, the call at the first strong pseudoprime to
bases 2, 3, 5, 7 with every random draw equal to `1` (a strong liar)
returns `true` and commits `1/100` of budget. -/
theorem eval_spsp_all_ones :
    IsPrime (init 1) 3215031751 (fun _ => 1) =
      some (true, ⟨1, 1 / 100, 1⟩) := by
  have hR := isPrimeR_rand_eval (init 1) 3215031751 (fun _ => 1) (1 / 100) 4 true
    (by norm_num [detThreshold]) (by norm_num) allowance_init_one (by norm_num)
    kOf_one_hundredth_toNat (by decide)
  rw [IsPrime, hR]
  norm_num [init]

/-- Same call but with every random draw equal to `11`, a Miller-Rabin
witness for `3215031751`: verdict `false`, state untouched. -/
theorem eval_spsp_all_elevens :
    IsPrime (init 1) 3215031751 (fun _ => 11) = some (false, init 1) := by
  have hR := isPrimeR_rand_eval (init 1) 3215031751 (fun _ => 11) (1 / 100) 4 false
    (by norm_num [detThreshold]) (by norm_num) allowance_init_one (by norm_num)
    kOf_one_hundredth_toNat (by decide)
  rw [IsPrime, hR]
  rfl

/-! ### Claims -/

/-- C1: for every sequence of completed `IsPrime` calls on a single oracle
instance (constructed with a nonnegative error ceiling),
`cumulative_error_sofar ≤ max_cumulative_error` holds after each call
completes, and both `cumulative_error_sofar` and `error_opportunity_count`
are monotonically non-decreasing across calls. -/
theorem claim_C1_budget_invariant (m : ℚ) (pre : List (ℤ × (ℕ → ℕ)))
    (s : MillerRabinPrimeChecker) (n : ℤ) (g : ℕ → ℕ) (b : Bool)
    (s' : MillerRabinPrimeChecker)
    (hm : 0 ≤ m) (hpre : runCalls (init m) pre = some s)
    (h : IsPrime s n g = some (b, s')) :
    s.cumulative_error_sofar ≤ s.max_cumulative_error ∧
    s'.cumulative_error_sofar ≤ s'.max_cumulative_error ∧
    s.cumulative_error_sofar ≤ s'.cumulative_error_sofar ∧
    s.error_opportunity_count ≤ s'.error_opportunity_count := by
  have hrun := runCalls_budget pre (init m) s hpre
  have hstep := isPrime_budget_step s n g b s' h
  have hinv0 : (init m).cumulative_error_sofar ≤ (init m).max_cumulative_error := by
    simpa [init] using hm
  have hinv : s.cumulative_error_sofar ≤ s.max_cumulative_error := hrun.2.2.2.1 hinv0
  exact ⟨hinv, hstep.2.2.2.1 hinv, hstep.2.1, hstep.2.2.1⟩

theorem claim_C1_budget_invariant_witness :
    (init 1).cumulative_error_sofar ≤ (init 1).max_cumulative_error ∧
    (init 1).cumulative_error_sofar ≤ (init 1).max_cumulative_error ∧
    (init 1).cumulative_error_sofar ≤ (init 1).cumulative_error_sofar ∧
    (init 1).error_opportunity_count ≤ (init 1).error_opportunity_count :=
  claim_C1_budget_invariant 1 [] (init 1) 5 (fun _ => 1) true (init 1)
    (by norm_num) rfl (by decide)

/-- C3: for a prime `n`, the single-witness test clears every base in
`[1, n-1]` (given the decomposition `n - 1 = 2 ^ r * d` with `d` odd), and
consequently every completed `IsPrime` call on `n` answers `true`, whatever
witness bases the random stream supplies. -/
theorem claim_C3_no_false_negatives (n : ℕ) (hp : Nat.Prime n) :
    (∀ base d r, 1 ≤ base → base ≤ n - 1 → n - 1 = 2 ^ r * d → d % 2 = 1 →
      IsDefinitelyComposite base n d r = false) ∧
    (∀ s g b s', (∀ i, 1 ≤ g i ∧ g i ≤ n - 1) →
      IsPrime s (n : ℤ) g = some (b, s') → b = true) :=
  ⟨fun base d r hb1 hb2 hdr _ =>
      isDefinitelyComposite_eq_false_of_prime n base d r hp hb1 hb2 hdr,
   fun s g b s' hg h => isPrime_of_prime n hp s g b s' hg h⟩

theorem claim_C3_no_false_negatives_witness : IsDefinitelyComposite 2 13 3 2 = false :=
  (claim_C3_no_false_negatives 13 (by norm_num)).1 2 3 2
    (by norm_num) (by norm_num) (by norm_num) (by norm_num)

/-- C4: for every completed randomized-regime call, the computed witness
count `kOf allowance` is the least integer `k` with `4 ^ (-k) ≤ allowance`
(the allowance being the one computed at the start of the call), and a
`true` verdict adds exactly that allowance to `cumulative_error_sofar` and
exactly `1` to `error_opportunity_count`. -/
theorem claim_C4_allowance_accounting (s : MillerRabinPrimeChecker) (n : ℤ)
    (g : ℕ → ℕ) (b : Bool) (s' : MillerRabinPrimeChecker)
    (hn : ((detThreshold : ℕ) : ℤ) ≤ n) (hodd : n % 2 = 1)
    (h : IsPrime s n g = some (b, s')) :
    ((4 : ℚ) ^ (-(kOf (allowanceOf s))) ≤ allowanceOf s ∧
      ∀ j : ℤ, (4 : ℚ) ^ (-j) ≤ allowanceOf s → kOf (allowanceOf s) ≤ j) ∧
    (b = true →
      s'.cumulative_error_sofar = s.cumulative_error_sofar + allowanceOf s ∧
      s'.error_opportunity_count = s.error_opportunity_count + 1) := by
  have ha : 0 < allowanceOf s := by
    by_contra hng
    push_neg at hng
    rw [IsPrime, isPrimeR_fault s n g hn hodd hng] at h
    simp at h
  refine ⟨kOf_least (allowanceOf s) ha, ?_⟩
  intro hb
  rw [IsPrime, isPrimeR_rand s n g hn hodd ha] at h
  simp only [Option.map_some', Option.some.injEq, Prod.mk.injEq] at h
  obtain ⟨hw, hs⟩ := h
  rw [hb] at hw
  rw [hw, if_pos rfl] at hs
  rw [← hs]
  exact ⟨rfl, rfl⟩

theorem claim_C4_allowance_accounting_witness :
    ((4 : ℚ) ^ (-(kOf (allowanceOf (init 1)))) ≤ allowanceOf (init 1) ∧
      ∀ j : ℤ, (4 : ℚ) ^ (-j) ≤ allowanceOf (init 1) → kOf (allowanceOf (init 1)) ≤ j) ∧
    (true = true →
      (⟨1, 1 / 100, 1⟩ : MillerRabinPrimeChecker).cumulative_error_sofar =
        (init 1).cumulative_error_sofar + allowanceOf (init 1) ∧
      (⟨1, 1 / 100, 1⟩ : MillerRabinPrimeChecker).error_opportunity_count =
        (init 1).error_opportunity_count + 1) :=
  claim_C4_allowance_accounting (init 1) 3215031751 (fun _ => 1) true ⟨1, 1 / 100, 1⟩
    (by norm_num [detThreshold]) (by norm_num) eval_spsp_all_ones

/-- C5 counterexample: the completed invocation `IsPrime(2)` performs zero
reporter invocations (no reporter is ever constructed on that path), so the
claim that every `IsPrime` invocation reports exactly once, never zero
times, fails as literally stated. -/
theorem claim_C5_counterexample : IsPrimeR (init 1) 2 (fun _ => 1) = some (true, init 1, 0) := by
  decide

/-- C5 (amended): every completed invocation that gets past the three
trivial guards (`n = 2`, `n ≤ 1`, `n` even) — and hence obtains a bases
generator and a reporter, in either regime — invokes the reporter exactly
once on every control path, including early exit from the witness loop;
the trivial-guard paths construct no reporter and report zero times.  In
particular no path reports twice, and the `Reporter` destructor assertion
cannot fire on a completed call. -/
theorem claim_C5_exactly_once_reporting (s : MillerRabinPrimeChecker) (n : ℤ)
    (g : ℕ → ℕ) (b : Bool) (s' : MillerRabinPrimeChecker) (c : ℕ)
    (h : IsPrimeR s n g = some (b, s', c)) :
    c = if n = 2 ∨ n ≤ 1 ∨ n % 2 = 0 then 0 else 1 := by
  by_cases h2 : n = 2
  · rw [if_pos (Or.inl h2)]
    simp [IsPrimeR, h2] at h
    omega
  by_cases h1 : n ≤ 1
  · rw [if_pos (Or.inr (Or.inl h1))]
    simp [IsPrimeR, h2, h1] at h
    omega
  by_cases he : n % 2 = 0
  · rw [if_pos (Or.inr (Or.inr he))]
    simp [IsPrimeR, h2, h1, he] at h
    omega
  rw [if_neg (by tauto)]
  have hn3 : 3 ≤ n := by omega
  have hodd : n % 2 = 1 := by omega
  by_cases hdet : n < ((detThreshold : ℕ) : ℤ)
  · rw [isPrimeR_det s n g hn3 hodd hdet] at h
    simp only [Option.some.injEq, Prod.mk.injEq] at h
    omega
  · have hth : ((detThreshold : ℕ) : ℤ) ≤ n := by omega
    by_cases ha : allowanceOf s ≤ 0
    · rw [isPrimeR_fault s n g hth hodd ha] at h
      simp at h
    · rw [isPrimeR_rand s n g hth hodd (not_le.mp ha)] at h
      simp only [Option.some.injEq, Prod.mk.injEq] at h
      omega

theorem claim_C5_exactly_once_reporting_witness :
    (1 : ℕ) = if (9 : ℤ) = 2 ∨ (9 : ℤ) ≤ 1 ∨ (9 : ℤ) % 2 = 0 then 0 else 1 :=
  claim_C5_exactly_once_reporting (init 1) 9 (fun _ => 1) false (init 1) 1 (by decide)

/-- C6: a deterministic-regime call, and any call whose verdict is
`false`, leaves the oracle state completely unchanged; and
`error_opportunity_count` can change only on a randomized-regime call that
concluded `true`. -/
theorem claim_C6_frame (s : MillerRabinPrimeChecker) (n : ℤ) (g : ℕ → ℕ)
    (b : Bool) (s' : MillerRabinPrimeChecker) (h : IsPrime s n g = some (b, s')) :
    ((n < ((detThreshold : ℕ) : ℤ) ∨ b = false) → s' = s) ∧
    (s'.error_opportunity_count ≠ s.error_opportunity_count →
      (((detThreshold : ℕ) : ℤ) ≤ n ∧ b = true)) := by
  rcases isPrime_shape s n g b s' h with rfl | ⟨hth, hb, ha, rfl⟩
  · exact ⟨fun _ => rfl, fun hne => absurd rfl hne⟩
  · constructor
    · rintro (hlt | hbf)
      · omega
      · rw [hb] at hbf
        exact absurd hbf (by simp)
    · intro _
      exact ⟨hth, hb⟩

theorem claim_C6_frame_witness :
    (((9 : ℤ) < ((detThreshold : ℕ) : ℤ) ∨ false = false) → init 1 = init 1) ∧
    ((init 1).error_opportunity_count ≠ (init 1).error_opportunity_count →
      (((detThreshold : ℕ) : ℤ) ≤ (9 : ℤ) ∧ false = true)) :=
  claim_C6_frame (init 1) 9 (fun _ => 1) false (init 1) (by decide)

/-- C7: the per-call allowance only shrinks: across any sequence of
completed calls the allowance computed from the final state is at most the
allowance computed from the initial state (so the allowance of the
`(m+1)`-th randomized call is at most that of the `m`-th). -/
theorem claim_C7_allowance_shrinks (s s' : MillerRabinPrimeChecker)
    (calls : List (ℤ × (ℕ → ℕ))) (h : runCalls s calls = some s') :
    allowanceOf s' ≤ allowanceOf s :=
  (runCalls_budget calls s s' h).2.2.2.2

theorem claim_C7_allowance_shrinks_witness : allowanceOf (init 1) ≤ allowanceOf (init 1) :=
  claim_C7_allowance_shrinks (init 1) (init 1) [((9 : ℤ), fun _ => 1)] (by decide)

/-- C8: when the per-call allowance is non-positive, a randomized-regime
call does not proceed with an ill-defined witness count: it raises
(`math.log` domain fault, modelled by `none`) and in particular never
produces a verdict or mutates state. -/
theorem claim_C8_budget_exhaustion_fault (s : MillerRabinPrimeChecker) (n : ℤ)
    (g : ℕ → ℕ) (ha : allowanceOf s ≤ 0)
    (hn : ((detThreshold : ℕ) : ℤ) ≤ n) (hodd : n % 2 = 1) :
    IsPrime s n g = none := by
  rw [IsPrime, isPrimeR_fault s n g hn hodd ha]
  rfl

theorem claim_C8_budget_exhaustion_fault_witness :
    IsPrime (init 0) 3215031751 (fun _ => 1) = none :=
  claim_C8_budget_exhaustion_fault (init 0) 3215031751 (fun _ => 1)
    (by norm_num [allowanceOf, init]) (by norm_num [detThreshold]) (by norm_num)

/-- C9 counterexample: on the boundary input `3215031751` (the first
strong pseudoprime to bases 2, 3, 5, 7, and a composite), a randomized
call whose draws are all the strong liar `1` completes with verdict
`true`: the code does not guarantee the verdict `false` there. -/
theorem claim_C9_counterexample :
    IsPrime (init 1) 3215031751 (fun _ => 1) = some (true, ⟨1, 1 / 100, 1⟩) :=
  eval_spsp_all_ones

/-- C9 (amended): `IsPrime(3215031750)` always returns `false` (even
input), and `IsPrime(3215031751)` returns `false` whenever some drawn base
witnesses its compositeness — for example with every draw equal to `11` —
but only with overwhelming probability, not with certainty, since draws
consisting solely of strong liars yield `true`. -/
theorem claim_C9_boundary :
    (∀ (s : MillerRabinPrimeChecker) (g : ℕ → ℕ),
      IsPrime s 3215031750 g = some (false, s)) ∧
    (∀ (s : MillerRabinPrimeChecker) (g : ℕ → ℕ) (b : Bool)
        (s' : MillerRabinPrimeChecker),
      IsPrime s 3215031751 g = some (b, s') →
      (∃ i < (kOf (allowanceOf s)).toNat,
        IsDefinitelyComposite (g i) 3215031751 1607515875 1 = true) →
      b = false) ∧
    IsDefinitelyComposite 11 3215031751 1607515875 1 = true ∧
    IsPrime (init 1) 3215031751 (fun _ => 11) = some (false, init 1) := by
  refine ⟨?_, ?_, by decide, eval_spsp_all_elevens⟩
  · intro s g
    have he : (3215031750 : ℤ) % 2 = 0 := by norm_num
    simp [IsPrime, IsPrimeR, he]
  · intro s g b s' h hex
    obtain ⟨i, hik, hw⟩ := hex
    have hth : ((detThreshold : ℕ) : ℤ) ≤ 3215031751 := by norm_num [detThreshold]
    have hodd : (3215031751 : ℤ) % 2 = 1 := by norm_num
    by_cases ha : allowanceOf s ≤ 0
    · rw [IsPrime, isPrimeR_fault s 3215031751 g hth hodd ha] at h
      simp at h
    · rw [IsPrime, isPrimeR_rand s 3215031751 g hth hodd (not_le.mp ha)] at h
      simp only [Option.map_some', Option.some.injEq, Prod.mk.injEq] at h
      have hmem : g i ∈ (List.range (kOf (allowanceOf s)).toNat).map g :=
        List.mem_map.mpr ⟨i, List.mem_range.mpr hik, rfl⟩
      have hwl : witnessLoop (3215031751 : ℤ).toNat
          (split2 ((3215031751 : ℤ).toNat - 1)).2 (split2 ((3215031751 : ℤ).toNat - 1)).1
          ((List.range (kOf (allowanceOf s)).toNat).map g) = false := by
        have hsplit : split2 ((3215031751 : ℤ).toNat - 1) = (1, 1607515875) := by decide
        rw [hsplit]
        exact witnessLoop_eq_false_of_mem (3215031751 : ℤ).toNat 1607515875 1 (g i)
          ((List.range (kOf (allowanceOf s)).toNat).map g) hmem hw
      rw [← h.1]
      exact hwl

/-- C10: whenever the current allowance is at least `1` (for example a
fresh oracle with ceiling at least `100`), the computed witness count is
non-positive, so a randomized-regime call draws no bases at all and
returns `true` without testing a single witness — while still committing
the allowance and incrementing the opportunity count. -/
theorem claim_C10_zero_witnesses (s : MillerRabinPrimeChecker) (n : ℤ) (g : ℕ → ℕ)
    (ha : 1 ≤ allowanceOf s) (hn : ((detThreshold : ℕ) : ℤ) ≤ n) (hodd : n % 2 = 1) :
    (kOf (allowanceOf s)).toNat = 0 ∧
    IsPrime s n g = some (true,
      { s with cumulative_error_sofar := s.cumulative_error_sofar + allowanceOf s,
               error_opportunity_count := s.error_opportunity_count + 1 }) := by
  have ha0 : 0 < allowanceOf s := lt_of_lt_of_le one_pos ha
  have hlog : Int.log 4 (allowanceOf s) = (Nat.log 4 ⌊allowanceOf s⌋₊ : ℤ) :=
    Int.log_of_one_le_right 4 ha
  have hk : (kOf (allowanceOf s)).toNat = 0 := by
    rw [kOf, hlog]
    omega
  refine ⟨hk, ?_⟩
  rw [IsPrime, isPrimeR_rand s n g hn hodd ha0, hk]
  rfl

theorem claim_C10_zero_witnesses_witness :
    (kOf (allowanceOf (init 100))).toNat = 0 ∧
    IsPrime (init 100) 3215031751 (fun _ => 1) = some (true,
      { init 100 with
          cumulative_error_sofar := (init 100).cumulative_error_sofar + allowanceOf (init 100),
          error_opportunity_count := (init 100).error_opportunity_count + 1 }) :=
  claim_C10_zero_witnesses (init 100) 3215031751 (fun _ => 1)
    (by norm_num [allowanceOf, init]) (by norm_num [detThreshold]) (by norm_num)
